import Mathlib

/-!
Verification of the parallel DAG executor in
src/src/ploomber/executors/Parallel.py.

Shallow embedding: task identities are strings (Python Task objects are
compared by identity in the lists `started` and `done`; every task here is
represented by its unique name). Task statuses live in a mutable map that we
pass explicitly as a function from names to statuses. The scheduling loop of
Parallel.__call__ is modelled as a step function driven by an explicit
schedule of actions (poll the loop, or fire the completion callback of a
pending future), which makes the asynchronous interleaving of callbacks with
the polling loop explicit. The outcome each future eventually delivers
(a normal build result or a BrokenProcessPool fault) is an oracle parameter.
-/

namespace Ploomber

/-- Status set of ploomber.constants.TaskStatus as used by Parallel.py
(the constants module is external to this file of the repository; the
states are those of the table in the specification). -/
inductive TaskStatus where
  | WaitingExecution
  | Executed
  | Skipped
  | Aborted
  | Errored
  | BrokenProcessPool
  deriving DecidableEq, Repr

/-- ExceptionResult from ploomber.ExceptionCollector: the value returned by
TaskBuildWrapper instead of a native exception; carries the rendered task
identity and the rendered traceback. -/
structure ExceptionResult where
  task_str : String
  traceback_str : String
  deriving DecidableEq, Repr

/-- A Python exception, abstracted: what matters to Parallel.py is only the
rendered trace that traceback.format_exc produces for it. -/
structure PyException where
  trace : String
  deriving DecidableEq, Repr

/-- Rendering of traceback.format_exc for the caught exception. -/
def format_exc (e : PyException) : String := e.trace

/-- What TaskBuildWrapper.__call__ returns: either the value returned by
task.build (a terminal status) or an ExceptionResult. -/
inductive BuildResult where
  | status (s : TaskStatus)
  | excResult (r : ExceptionResult)
  deriving DecidableEq, Repr

/-- TaskBuildWrapper.__call__: attempt task.build with the run arguments;
on success return its result, on any exception return an ExceptionResult
built from repr of the task and the rendered traceback. The Lean return
type is total: no exception escapes the wrapper. The build operation is
passed as data: Except.ok for a normal return, Except.error for a raise. -/
def TaskBuildWrapper.call (task_repr : String)
    (build : Except PyException TaskStatus) : BuildResult :=
  match build with
  | .ok s => .status s
  | .error e => .excResult { task_str := task_repr, traceback_str := format_exc e }

/-- Outcome a future delivers to its callback: future.result() either
returns what TaskBuildWrapper returned, or raises BrokenProcessPool. -/
inductive FutureOutcome where
  | result (r : BuildResult)
  | broken
  deriving DecidableEq, Repr

/-- Pointwise update of the status map, modelling task.exec_status = v. -/
def statusUpdate (status : String → TaskStatus) (t : String) (v : TaskStatus) :
    String → TaskStatus :=
  fun n => if n = t then v else status n

/-- The callback closure in Parallel.__call__: on BrokenProcessPool from
future.result() set the task status to BrokenProcessPool; else on an
ExceptionResult set it to Errored; else assign the returned value itself.
In every case append the task to done. Returns the updated status map and
the updated done list. -/
def callback (t : String) (o : FutureOutcome)
    (status : String → TaskStatus) (done : List String) :
    (String → TaskStatus) × List String :=
  match o with
  | .broken => (statusUpdate status t .BrokenProcessPool, done ++ [t])
  | .result (.excResult _) => (statusUpdate status t .Errored, done ++ [t])
  | .result (.status s) => (statusUpdate status t s, done ++ [t])

/-- First for-loop of next_task: scan the tasks of the dag in order; append
each Aborted task to done (no membership check); on the first task whose
status is BrokenProcessPool, stop scanning and signal StopIteration.
Returns the list of appended tasks and the broken flag. -/
def abortedScan (status : String → TaskStatus) : List String → List String × Bool
  | [] => ([], false)
  | t :: ts =>
    if status t = TaskStatus.Aborted then
      let r := abortedScan status ts
      (t :: r.1, r.2)
    else if status t = TaskStatus.BrokenProcessPool then
      ([], true)
    else
      abortedScan status ts

/-- Condition of the second for-loop of next_task: the task status is
WaitingExecution and the task is not in started. -/
def taskReady (status : String → TaskStatus) (started : List String)
    (t : String) : Bool :=
  decide (status t = TaskStatus.WaitingExecution ∧ t ∉ started)

/-- Python set equality set(xs) == set(ys): mutual membership. -/
def setEq (xs ys : List String) : Bool :=
  decide ((∀ n ∈ xs, n ∈ ys) ∧ (∀ n ∈ ys, n ∈ xs))

/-- Possible outcomes of one call to next_task. In the Python source both
stop cases raise the same StopIteration; the two constructors record which
branch raised it (observable from the state). keepPolling is the implicit
return None at the end of the function. -/
inductive NextTaskOutcome where
  | dispatch (t : String)
  | stopBroken
  | stopDone
  | keepPolling
  deriving DecidableEq, Repr

/-- next_task from Parallel.__call__: run the aborted/broken scan (which
mutates done), stop with StopIteration if a BrokenProcessPool status was
seen; otherwise return the first task in dag order whose status is
WaitingExecution and which is not in started; otherwise stop with
StopIteration when the name set of done equals the name set of the dag,
and return None (keep polling) when it does not. Returns the updated done
list together with the outcome. -/
def next_task (dag : List String) (status : String → TaskStatus)
    (started done : List String) : List String × NextTaskOutcome :=
  let scan := abortedScan status dag
  let done1 := done ++ scan.1
  if scan.2 then
    (done1, .stopBroken)
  else
    match dag.find? (taskReady status started) with
    | some t => (done1, .dispatch t)
    | none => if setEq done1 dag then (done1, .stopDone) else (done1, .keepPolling)

/-- Mutable state of Parallel.__call__ across loop iterations: the status
map, the done list, the started list, and the tasks whose future is in
flight (submitted, callback not yet fired). The full submission history of
the run is exactly the started list: started.append and
future_mapping[future] = task happen together at dispatch. -/
structure RunState where
  status : String → TaskStatus
  done : List String
  started : List String
  pending : List String

/-- One step of the interleaving between the polling loop and the
asynchronous completion callbacks: either the loop body polls next_task, or
the callback of the pending future at a given index fires. -/
inductive SchedAction where
  | poll
  | fire (i : Nat)
  deriving DecidableEq, Repr

/-- Which branch of next_task raised the StopIteration that broke the
while-loop: the BrokenProcessPool scan (fatal) or the all-done check
(normal). -/
inductive StopReason where
  | fatal
  | normal
  deriving DecidableEq, Repr

/-- Fire the completion callback of the future of task t: apply callback to
the status map and done list of the state. -/
def fireCallback (outcome : String → FutureOutcome) (t : String)
    (s : RunState) : RunState :=
  let r := callback t (outcome t) s.status s.done
  { s with status := r.1, done := r.2 }

/-- The while-loop of Parallel.__call__, driven by a schedule. A poll runs
next_task: on StopIteration the loop breaks (recording which branch
raised); on a returned task the loop submits it (append to started and to
pending); on None it continues. A fire action makes the callback of the
i-th pending future run. When the schedule is exhausted with the loop
still running, the stop reason is none. -/
def loop (outcome : String → FutureOutcome) (dag : List String) :
    List SchedAction → RunState → RunState × Option StopReason
  | [], s => (s, none)
  | SchedAction.poll :: rest, s =>
    let r := next_task dag s.status s.started s.done
    match r.2 with
    | .dispatch t =>
      loop outcome dag rest
        { s with done := r.1, started := s.started ++ [t], pending := s.pending ++ [t] }
    | .stopBroken => ({ s with done := r.1 }, some .fatal)
    | .stopDone => ({ s with done := r.1 }, some .normal)
    | .keepPolling => loop outcome dag rest { s with done := r.1 }
  | SchedAction.fire i :: rest, s =>
    match s.pending.get? i with
    | some t =>
      loop outcome dag rest (fireCallback outcome t { s with pending := s.pending.eraseIdx i })
    | none => loop outcome dag rest s

/-- After the while-loop breaks, the ProcessPoolExecutor context exit waits
for the outstanding futures; their callbacks fire before the run proceeds
to collect results. -/
def drainCallbacks (outcome : String → FutureOutcome) :
    List String → RunState → RunState
  | [], s => s
  | t :: ts, s => drainCallbacks outcome ts (fireCallback outcome t s)

/-- get_future_result at the bottom of Parallel.py: future.result(), which
re-raises BrokenProcessPool (wrapped with the task of the future) when the
pool broke for that future, and otherwise returns the result of the
TaskBuildWrapper call. -/
def get_future_result (outcome : String → FutureOutcome) (t : String) :
    Except String BuildResult :=
  match outcome t with
  | .broken => .error t
  | .result r => .ok r

/-- The list comprehension feeding ExceptionCollector: walk the futures in
insertion order, call get_future_result on each to test whether it is an
ExceptionResult, and collect those that are. The first future whose
get_future_result raises BrokenProcessPool aborts the whole comprehension
with that error. -/
def collectExps (outcome : String → FutureOutcome) :
    List String → Except String (List ExceptionResult)
  | [] => .ok []
  | f :: fs =>
    match get_future_result outcome f with
    | .error t => .error t
    | .ok (.excResult r) =>
      match collectExps outcome fs with
      | .error t => .error t
      | .ok l => .ok (r :: l)
    | .ok (.status _) => collectExps outcome fs

/-- How the whole run ends for its caller: normal return, the aggregate
DAGBuildError listing the collected ExceptionResults, or the
BrokenProcessPool exception re-raised by get_future_result (carrying the
task of the first broken future). -/
inductive RunResult where
  | success
  | dagBuildError (exps : List ExceptionResult)
  | brokenPoolError (task : String)
  deriving DecidableEq, Repr

/-- End-of-run aggregation of Parallel.__call__: build the ExceptionResult
list over all futures; a BrokenProcessPool from get_future_result
propagates; a non-empty list raises DAGBuildError; an empty list returns
normally. -/
def aggregate (outcome : String → FutureOutcome) (futures : List String) :
    RunResult :=
  match collectExps outcome futures with
  | .error t => .brokenPoolError t
  | .ok [] => .success
  | .ok exps => .dagBuildError exps

/-- Pre-run loop of Parallel.__call__: every task already Executed or
Skipped is appended to done before the while-loop starts. -/
def preDone (dag : List String) (status : String → TaskStatus) : List String :=
  dag.filter fun n =>
    decide (status n = TaskStatus.Executed) || decide (status n = TaskStatus.Skipped)

/-- Everything the run produced: the final state (after the outstanding
callbacks fired), the reason the loop stopped (none when the schedule ended
with the loop still running), and the outcome delivered to the caller. -/
structure RunOutput where
  state : RunState
  reason : Option StopReason
  result : RunResult

/-- Parallel.__call__: initialise done with the already satisfied tasks,
run the while-loop, let the outstanding callbacks fire at pool shutdown,
then aggregate the future results (futures are iterated in insertion
order, which is the started order). -/
def Parallel.call (outcome : String → FutureOutcome) (dag : List String)
    (status0 : String → TaskStatus) (schedule : List SchedAction) : RunOutput :=
  let s0 : RunState :=
    { status := status0, done := preDone dag status0, started := [], pending := [] }
  let r := loop outcome dag schedule s0
  let s1 := drainCallbacks outcome r.1.pending { r.1 with pending := [] }
  { state := s1, reason := r.2, result := aggregate outcome r.1.started }

/-- The ExceptionResult values among the outcomes of a list of futures, in
order: the list ExceptionCollector receives when no future raises
BrokenProcessPool. -/
def expsOf (outcome : String → FutureOutcome) (l : List String) :
    List ExceptionResult :=
  l.filterMap fun f =>
    match outcome f with
    | .result (.excResult r) => some r
    | _ => none

/-- Fixture: every task WaitingExecution. -/
def stWaiting : String → TaskStatus := fun _ => .WaitingExecution

/-- Fixture: every task Executed. -/
def stExecuted : String → TaskStatus := fun _ => .Executed

/-- Fixture: every task BrokenProcessPool. -/
def stBroken : String → TaskStatus := fun _ => .BrokenProcessPool

/-- Fixture: task a Aborted, every other task WaitingExecution. -/
def stAbortedA : String → TaskStatus :=
  fun n => if n = "a" then .Aborted else .WaitingExecution

/-- Fixture: every future raises BrokenProcessPool. -/
def outBroken : String → FutureOutcome := fun _ => .broken

/-- Fixture: every future returns Executed. -/
def outExecuted : String → FutureOutcome := fun _ => .result (.status .Executed)

/-- Fixture: the future of task a raises BrokenProcessPool, every other
future returns Executed. -/
def outBrokenA : String → FutureOutcome :=
  fun n => if n = "a" then .broken else .result (.status .Executed)

/-! Helper lemmas about the aborted/broken scan, the readiness test and the
name-set comparison. -/

theorem taskReady_iff (status : String → TaskStatus) (started : List String)
    (t : String) :
    taskReady status started t = true ↔
      (status t = TaskStatus.WaitingExecution ∧ t ∉ started) := by
  simp [taskReady]

theorem abortedScan_not_broken (status : String → TaskStatus) :
    ∀ dag : List String,
      (∀ n ∈ dag, status n ≠ TaskStatus.BrokenProcessPool) →
      (abortedScan status dag).2 = false := by
  intro dag
  induction dag with
  | nil => intro _; rfl
  | cons t ts ih =>
    intro h
    have hts : ∀ n ∈ ts, status n ≠ TaskStatus.BrokenProcessPool :=
      fun n hn => h n (List.mem_cons_of_mem _ hn)
    have ht : status t ≠ TaskStatus.BrokenProcessPool := h t (List.mem_cons_self _ _)
    by_cases h1 : status t = TaskStatus.Aborted
    · simp [abortedScan, h1, ih hts]
    · simp [abortedScan, h1, ht, ih hts]

theorem abortedScan_broken (status : String → TaskStatus) :
    ∀ dag : List String,
      (∃ n ∈ dag, status n = TaskStatus.BrokenProcessPool) →
      (abortedScan status dag).2 = true := by
  intro dag
  induction dag with
  | nil => intro h; simp at h
  | cons t ts ih =>
    intro h
    obtain ⟨n, hn, hb⟩ := h
    by_cases h1 : status t = TaskStatus.Aborted
    · have hnts : n ∈ ts := by
        rcases List.mem_cons.mp hn with h2 | h2
        · subst h2; rw [hb] at h1; exact absurd h1 (by simp)
        · exact h2
      simp [abortedScan, h1, ih ⟨n, hnts, hb⟩]
    · by_cases h2 : status t = TaskStatus.BrokenProcessPool
      · simp [abortedScan, h1, h2]
      · have hnts : n ∈ ts := by
          rcases List.mem_cons.mp hn with h3 | h3
          · subst h3; exact absurd hb h2
          · exact h3
        simp [abortedScan, h1, h2, ih ⟨n, hnts, hb⟩]

theorem abortedScan_no_hits (status : String → TaskStatus) :
    ∀ dag : List String,
      (∀ n ∈ dag, status n ≠ TaskStatus.Aborted ∧
        status n ≠ TaskStatus.BrokenProcessPool) →
      abortedScan status dag = ([], false) := by
  intro dag
  induction dag with
  | nil => intro _; rfl
  | cons t ts ih =>
    intro h
    have ht := h t (List.mem_cons_self _ _)
    have hts := fun n hn => h n (List.mem_cons_of_mem _ hn)
    simp [abortedScan, ht.1, ht.2, ih hts]

theorem setEq_iff (xs ys : List String) :
    setEq xs ys = true ↔ ∀ n, (n ∈ xs ↔ n ∈ ys) := by
  unfold setEq
  rw [decide_eq_true_eq]
  constructor
  · rintro ⟨h1, h2⟩ n; exact ⟨h1 n, h2 n⟩
  · intro h; exact ⟨fun n hn => (h n).1 hn, fun n hn => (h n).2 hn⟩

theorem find?_eq_some_first {α : Type} (p : α → Bool) :
    ∀ (l : List α) (a : α), l.find? p = some a →
      ∃ pre post, l = pre ++ a :: post ∧ p a = true ∧ ∀ u ∈ pre, p u = false := by
  intro l
  induction l with
  | nil => intro a h; simp [List.find?] at h
  | cons x xs ih =>
    intro a h
    by_cases hx : p x = true
    · rw [List.find?_cons_of_pos _ hx] at h
      obtain rfl : x = a := by injection h
      exact ⟨[], xs, by simp, hx, by simp⟩
    · rw [List.find?_cons_of_neg _ (by simpa using hx)] at h
      obtain ⟨pre, post, heq, hpa, hpre⟩ := ih a h
      refine ⟨x :: pre, post, by simp [heq], hpa, ?_⟩
      intro u hu
      rcases List.mem_cons.mp hu with h2 | h2
      · subst h2; simpa using hx
      · exact hpre u h2

/-! Helper lemmas about next_task: one equation lemma per branch of the
function, then consequences. -/

theorem next_task_of_broken (dag : List String) (status : String → TaskStatus)
    (started done : List String)
    (hs : (abortedScan status dag).2 = true) :
    next_task dag status started done =
      (done ++ (abortedScan status dag).1, NextTaskOutcome.stopBroken) := by
  unfold next_task
  simp [hs]

theorem next_task_of_find (dag : List String) (status : String → TaskStatus)
    (started done : List String) (t : String)
    (hs : (abortedScan status dag).2 = false)
    (hf : dag.find? (taskReady status started) = some t) :
    next_task dag status started done =
      (done ++ (abortedScan status dag).1, NextTaskOutcome.dispatch t) := by
  unfold next_task
  simp [hs, hf]

theorem next_task_of_none_stop (dag : List String) (status : String → TaskStatus)
    (started done : List String)
    (hs : (abortedScan status dag).2 = false)
    (hf : dag.find? (taskReady status started) = none)
    (hd : setEq (done ++ (abortedScan status dag).1) dag = true) :
    next_task dag status started done =
      (done ++ (abortedScan status dag).1, NextTaskOutcome.stopDone) := by
  unfold next_task
  simp [hs, hf, hd]

theorem next_task_of_none_poll (dag : List String) (status : String → TaskStatus)
    (started done : List String)
    (hs : (abortedScan status dag).2 = false)
    (hf : dag.find? (taskReady status started) = none)
    (hd : setEq (done ++ (abortedScan status dag).1) dag = false) :
    next_task dag status started done =
      (done ++ (abortedScan status dag).1, NextTaskOutcome.keepPolling) := by
  unfold next_task
  simp [hs, hf, hd]

theorem next_task_dispatch_find? (dag : List String)
    (status : String → TaskStatus) (started done : List String) (t : String)
    (h : (next_task dag status started done).2 = NextTaskOutcome.dispatch t) :
    dag.find? (taskReady status started) = some t := by
  by_cases hs : (abortedScan status dag).2 = true
  · rw [next_task_of_broken dag status started done hs] at h
    simp at h
  · rw [Bool.not_eq_true] at hs
    cases hf : dag.find? (taskReady status started) with
    | none =>
      by_cases hd : setEq (done ++ (abortedScan status dag).1) dag = true
      · rw [next_task_of_none_stop dag status started done hs hf hd] at h
        simp at h
      · rw [Bool.not_eq_true] at hd
        rw [next_task_of_none_poll dag status started done hs hf hd] at h
        simp at h
    | some u =>
      rw [next_task_of_find dag status started done u hs hf] at h
      simp only [NextTaskOutcome.dispatch.injEq] at h
      cases h
      rfl

theorem next_task_dispatch_ready (dag : List String)
    (status : String → TaskStatus) (started done : List String) (t : String)
    (h : (next_task dag status started done).2 = NextTaskOutcome.dispatch t) :
    status t = TaskStatus.WaitingExecution ∧ t ∉ started := by
  have hf := next_task_dispatch_find? dag status started done t h
  exact (taskReady_iff status started t).mp (List.find?_some hf)

/-! Helper lemmas about the callback, the loop and the drain. -/

theorem callback_status_other (t : String) (o : FutureOutcome)
    (status : String → TaskStatus) (done : List String) (n : String)
    (hn : n ≠ t) :
    (callback t o status done).1 n = status n := by
  cases o with
  | broken => simp [callback, statusUpdate, hn]
  | result r =>
    cases r with
    | status v => simp [callback, statusUpdate, hn]
    | excResult e => simp [callback, statusUpdate, hn]

theorem fireCallback_started (outcome : String → FutureOutcome) (t : String)
    (s : RunState) :
    (fireCallback outcome t s).started = s.started := rfl

theorem fireCallback_pending (outcome : String → FutureOutcome) (t : String)
    (s : RunState) :
    (fireCallback outcome t s).pending = s.pending := rfl

theorem fireCallback_status_other (outcome : String → FutureOutcome)
    (t : String) (s : RunState) (n : String) (hn : n ≠ t) :
    (fireCallback outcome t s).status n = s.status n :=
  callback_status_other t (outcome t) s.status s.done n hn

theorem loop_started_nodup (outcome : String → FutureOutcome)
    (dag : List String) :
    ∀ (schedule : List SchedAction) (s : RunState),
      s.started.Nodup → (loop outcome dag schedule s).1.started.Nodup := by
  intro schedule
  induction schedule with
  | nil => intro s h; exact h
  | cons a rest ih =>
    intro s h
    cases a with
    | poll =>
      show (match (next_task dag s.status s.started s.done).2 with
        | NextTaskOutcome.dispatch t =>
          loop outcome dag rest
            { s with done := (next_task dag s.status s.started s.done).1,
                     started := s.started ++ [t], pending := s.pending ++ [t] }
        | NextTaskOutcome.stopBroken =>
          ({ s with done := (next_task dag s.status s.started s.done).1 },
            some StopReason.fatal)
        | NextTaskOutcome.stopDone =>
          ({ s with done := (next_task dag s.status s.started s.done).1 },
            some StopReason.normal)
        | NextTaskOutcome.keepPolling =>
          loop outcome dag rest
            { s with done := (next_task dag s.status s.started s.done).1 }).1.started.Nodup
      cases hnt : (next_task dag s.status s.started s.done).2 with
      | dispatch t =>
        have ht : t ∉ s.started :=
          (next_task_dispatch_ready dag s.status s.started s.done t hnt).2
        apply ih
        have hd : s.started.Disjoint [t] := by
          intro x hx hxt
          rw [List.mem_singleton] at hxt
          exact ht (hxt ▸ hx)
        exact List.Nodup.append h (List.nodup_singleton t) hd
      | stopBroken => exact h
      | stopDone => exact h
      | keepPolling => exact ih _ h
    | fire i =>
      show (match s.pending.get? i with
        | some t =>
          loop outcome dag rest
            (fireCallback outcome t { s with pending := s.pending.eraseIdx i })
        | none => loop outcome dag rest s).1.started.Nodup
      cases hp : s.pending.get? i with
      | some t => exact ih _ h
      | none => exact ih _ h

theorem loop_poll_eq (outcome : String → FutureOutcome) (dag : List String)
    (rest : List SchedAction) (s : RunState) :
    loop outcome dag (SchedAction.poll :: rest) s =
      match (next_task dag s.status s.started s.done).2 with
      | NextTaskOutcome.dispatch t =>
        loop outcome dag rest
          { s with done := (next_task dag s.status s.started s.done).1,
                   started := s.started ++ [t], pending := s.pending ++ [t] }
      | NextTaskOutcome.stopBroken =>
        ({ s with done := (next_task dag s.status s.started s.done).1 },
          some StopReason.fatal)
      | NextTaskOutcome.stopDone =>
        ({ s with done := (next_task dag s.status s.started s.done).1 },
          some StopReason.normal)
      | NextTaskOutcome.keepPolling =>
        loop outcome dag rest
          { s with done := (next_task dag s.status s.started s.done).1 } := rfl

theorem loop_fire_eq (outcome : String → FutureOutcome) (dag : List String)
    (i : Nat) (rest : List SchedAction) (s : RunState) :
    loop outcome dag (SchedAction.fire i :: rest) s =
      match s.pending.get? i with
      | some t =>
        loop outcome dag rest
          (fireCallback outcome t { s with pending := s.pending.eraseIdx i })
      | none => loop outcome dag rest s := rfl

theorem loop_frame (outcome : String → FutureOutcome) (dag : List String) :
    ∀ (schedule : List SchedAction) (s : RunState),
      (∀ x ∈ s.pending, x ∈ s.started) →
      ((∀ x ∈ (loop outcome dag schedule s).1.pending,
          x ∈ (loop outcome dag schedule s).1.started) ∧
       (∀ x ∈ s.started, x ∈ (loop outcome dag schedule s).1.started) ∧
       (∀ n, n ∉ (loop outcome dag schedule s).1.started →
          (loop outcome dag schedule s).1.status n = s.status n)) := by
  intro schedule
  induction schedule with
  | nil => intro s h; exact ⟨h, fun x hx => hx, fun n _ => rfl⟩
  | cons a rest ih =>
    intro s h
    cases a with
    | poll =>
      rw [loop_poll_eq]
      cases hnt : (next_task dag s.status s.started s.done).2 with
      | dispatch t =>
        have hinv : ∀ x ∈ s.pending ++ [t], x ∈ s.started ++ [t] := by
          intro x hx
          rcases List.mem_append.mp hx with h1 | h1
          · exact List.mem_append.mpr (Or.inl (h x h1))
          · exact List.mem_append.mpr (Or.inr h1)
        obtain ⟨p1, p2, p3⟩ := ih
          { s with done := (next_task dag s.status s.started s.done).1,
                   started := s.started ++ [t], pending := s.pending ++ [t] } hinv
        refine ⟨p1, ?_, ?_⟩
        · intro x hx
          exact p2 x (List.mem_append.mpr (Or.inl hx))
        · intro n hn
          exact p3 n hn
      | stopBroken => exact ⟨h, fun x hx => hx, fun n _ => rfl⟩
      | stopDone => exact ⟨h, fun x hx => hx, fun n _ => rfl⟩
      | keepPolling =>
        exact ih { s with done := (next_task dag s.status s.started s.done).1 } h
    | fire i =>
      rw [loop_fire_eq]
      cases hp : s.pending.get? i with
      | some t =>
        have ht : t ∈ s.started := h t (List.get?_mem hp)
        have hinv : ∀ x ∈ (fireCallback outcome t
            { s with pending := s.pending.eraseIdx i }).pending,
            x ∈ (fireCallback outcome t
              { s with pending := s.pending.eraseIdx i }).started := by
          intro x hx
          rw [fireCallback_pending] at hx
          rw [fireCallback_started]
          exact h x (List.eraseIdx_subset _ _ hx)
        obtain ⟨p1, p2, p3⟩ := ih
          (fireCallback outcome t { s with pending := s.pending.eraseIdx i }) hinv
        refine ⟨p1, ?_, ?_⟩
        · intro x hx
          apply p2
          rw [fireCallback_started]
          exact hx
        · intro n hn
          have hst := p3 n hn
          have hnt : n ≠ t := by
            intro hcontra
            apply hn
            apply p2
            rw [fireCallback_started]
            exact hcontra ▸ ht
          rw [hst]
          exact fireCallback_status_other outcome t _ n hnt
      | none => exact ih s h

theorem drainCallbacks_started (outcome : String → FutureOutcome) :
    ∀ (l : List String) (s : RunState),
      (drainCallbacks outcome l s).started = s.started := by
  intro l
  induction l with
  | nil => intro s; rfl
  | cons t ts ih =>
    intro s
    rw [show drainCallbacks outcome (t :: ts) s =
      drainCallbacks outcome ts (fireCallback outcome t s) from rfl]
    rw [ih, fireCallback_started]

theorem drainCallbacks_status_other (outcome : String → FutureOutcome) :
    ∀ (l : List String) (s : RunState) (n : String), n ∉ l →
      (drainCallbacks outcome l s).status n = s.status n := by
  intro l
  induction l with
  | nil => intro s n _; rfl
  | cons t ts ih =>
    intro s n hn
    rw [show drainCallbacks outcome (t :: ts) s =
      drainCallbacks outcome ts (fireCallback outcome t s) from rfl]
    have hnt : n ≠ t := fun hc => hn (hc ▸ List.mem_cons_self _ _)
    have hnts : n ∉ ts := fun hc => hn (List.mem_cons_of_mem _ hc)
    rw [ih _ n hnts]
    exact fireCallback_status_other outcome t s n hnt

/-! Helper lemmas about the end-of-run aggregation. -/

theorem collectExps_of_no_broken (outcome : String → FutureOutcome) :
    ∀ l : List String,
      (∀ f ∈ l, outcome f ≠ FutureOutcome.broken) →
      collectExps outcome l = Except.ok (expsOf outcome l) := by
  intro l
  induction l with
  | nil => intro _; rfl
  | cons f fs ih =>
    intro h
    have hf : outcome f ≠ FutureOutcome.broken := h f (List.mem_cons_self _ _)
    have hfs := fun x hx => h x (List.mem_cons_of_mem _ hx)
    cases ho : outcome f with
    | broken => exact absurd ho hf
    | result r =>
      cases r with
      | status v =>
        simp [collectExps, get_future_result, ho, ih hfs, expsOf]
      | excResult e =>
        simp [collectExps, get_future_result, ho, ih hfs, expsOf]

theorem collectExps_of_broken (outcome : String → FutureOutcome) :
    ∀ l : List String,
      (∃ f ∈ l, outcome f = FutureOutcome.broken) →
      ∃ t ∈ l, outcome t = FutureOutcome.broken ∧
        collectExps outcome l = Except.error t := by
  intro l
  induction l with
  | nil => intro h; simp at h
  | cons f fs ih =>
    intro h
    cases ho : outcome f with
    | broken =>
      exact ⟨f, List.mem_cons_self _ _, ho, by simp [collectExps, get_future_result, ho]⟩
    | result r =>
      have hfs : ∃ x ∈ fs, outcome x = FutureOutcome.broken := by
        obtain ⟨x, hx, hb⟩ := h
        rcases List.mem_cons.mp hx with h1 | h1
        · subst h1; rw [hb] at ho; exact absurd ho.symm (by simp)
        · exact ⟨x, h1, hb⟩
      obtain ⟨t, ht, hb, hc⟩ := ih hfs
      refine ⟨t, List.mem_cons_of_mem _ ht, hb, ?_⟩
      cases r with
      | status v => simp [collectExps, get_future_result, ho, hc]
      | excResult e => simp [collectExps, get_future_result, ho, hc]

theorem expsOf_eq_nil_iff (outcome : String → FutureOutcome) (l : List String) :
    expsOf outcome l = [] ↔
      ∀ f ∈ l, ∀ r, outcome f ≠ FutureOutcome.result (BuildResult.excResult r) := by
  unfold expsOf
  rw [List.filterMap_eq_nil_iff]
  constructor
  · intro h f hf r hr
    have := h f hf
    rw [hr] at this
    simp at this
  · intro h f hf
    cases ho : outcome f with
    | broken => rfl
    | result r =>
      cases r with
      | status v => rfl
      | excResult e => exact absurd ho (h f hf e)

theorem aggregate_characterization (outcome : String → FutureOutcome)
    (l : List String) :
    (aggregate outcome l = RunResult.success ↔
      ∀ f ∈ l, (∀ r, outcome f ≠ FutureOutcome.result (BuildResult.excResult r)) ∧
        outcome f ≠ FutureOutcome.broken) ∧
    ((∃ e, aggregate outcome l = RunResult.dagBuildError e) ↔
      ((∃ f ∈ l, ∃ r, outcome f = FutureOutcome.result (BuildResult.excResult r)) ∧
        ∀ f ∈ l, outcome f ≠ FutureOutcome.broken)) ∧
    ((∃ t, aggregate outcome l = RunResult.brokenPoolError t) ↔
      ∃ f ∈ l, outcome f = FutureOutcome.broken) := by
  by_cases hb : ∃ f ∈ l, outcome f = FutureOutcome.broken
  · obtain ⟨t, ht, htb, hc⟩ := collectExps_of_broken outcome l hb
    have hag : aggregate outcome l = RunResult.brokenPoolError t := by
      simp [aggregate, hc]
    obtain ⟨f0, hf0, hf0b⟩ := hb
    refine ⟨?_, ?_, ?_⟩
    · rw [hag]
      constructor
      · intro h; exact absurd h (by simp)
      · intro h; exact absurd hf0b (h f0 hf0).2
    · rw [hag]
      constructor
      · rintro ⟨e, he⟩; exact absurd he (by simp)
      · rintro ⟨_, hnb⟩; exact absurd hf0b (hnb f0 hf0)
    · rw [hag]
      exact iff_of_true ⟨t, rfl⟩ ⟨f0, hf0, hf0b⟩
  · push_neg at hb
    have hc : collectExps outcome l = Except.ok (expsOf outcome l) :=
      collectExps_of_no_broken outcome l hb
    cases he : expsOf outcome l with
    | nil =>
      have hag : aggregate outcome l = RunResult.success := by
        simp [aggregate, hc, he]
      refine ⟨?_, ?_, ?_⟩
      · rw [hag]
        have hnoexc := (expsOf_eq_nil_iff outcome l).mp he
        exact iff_of_true rfl fun f hf => ⟨fun r => hnoexc f hf r, hb f hf⟩
      · rw [hag]
        constructor
        · rintro ⟨e, hee⟩; exact absurd hee (by simp)
        · rintro ⟨⟨f, hf, r, hr⟩, _⟩
          exact absurd hr ((expsOf_eq_nil_iff outcome l).mp he f hf r)
      · rw [hag]
        constructor
        · rintro ⟨t, ht⟩; exact absurd ht (by simp)
        · rintro ⟨f, hf, hfb⟩; exact absurd hfb (hb f hf)
    | cons e es =>
      have hag : aggregate outcome l = RunResult.dagBuildError (e :: es) := by
        simp [aggregate, hc, he]
      have hexc : ∃ f ∈ l, ∃ r,
          outcome f = FutureOutcome.result (BuildResult.excResult r) := by
        by_contra hno
        push_neg at hno
        have : expsOf outcome l = [] :=
          (expsOf_eq_nil_iff outcome l).mpr fun f hf r hr => hno f hf r hr
        rw [this] at he
        exact absurd he (by simp)
      refine ⟨?_, ?_, ?_⟩
      · rw [hag]
        constructor
        · intro h; exact absurd h (by simp)
        · intro h
          obtain ⟨f, hf, r, hr⟩ := hexc
          exact absurd hr ((h f hf).1 r)
      · rw [hag]
        exact iff_of_true ⟨e :: es, rfl⟩ ⟨hexc, hb⟩
      · rw [hag]
        constructor
        · rintro ⟨t, ht⟩; exact absurd ht (by simp)
        · rintro ⟨f, hf, hfb⟩; exact absurd hfb (hb f hf)

theorem parallelCall_started_eq (outcome : String → FutureOutcome)
    (dag : List String) (status0 : String → TaskStatus)
    (schedule : List SchedAction) :
    (Parallel.call outcome dag status0 schedule).state.started =
      (loop outcome dag schedule
        { status := status0, done := preDone dag status0,
          started := [], pending := [] }).1.started := by
  unfold Parallel.call
  rw [drainCallbacks_started]

theorem parallelCall_result_eq (outcome : String → FutureOutcome)
    (dag : List String) (status0 : String → TaskStatus)
    (schedule : List SchedAction) :
    (Parallel.call outcome dag status0 schedule).result =
      aggregate outcome (Parallel.call outcome dag status0 schedule).state.started := by
  rw [parallelCall_started_eq]
  rfl

/-! Claim theorems. -/

/-- C5: for every task and run arguments, TaskBuildWrapper.__call__ returns
the resulting terminal status of the task when the build succeeds, and on
any exception raised by the build it returns an ExceptionResult carrying
the textual identity of the task and the fully rendered stack trace; the
exception never propagates out of the invocation (the Lean return type is
total, so there is no escaping error path). -/
theorem taskBuildWrapper_isolates_failures (task_repr : String)
    (build : Except PyException TaskStatus) :
    (∀ s, build = Except.ok s →
      TaskBuildWrapper.call task_repr build = BuildResult.status s) ∧
    (∀ e, build = Except.error e →
      TaskBuildWrapper.call task_repr build =
        BuildResult.excResult
          { task_str := task_repr, traceback_str := format_exc e }) := by
  constructor
  · intro s h; subst h; rfl
  · intro e h; subst h; rfl

/-- Witness for C5 at a concrete successful build and a concrete raising
build. -/
theorem taskBuildWrapper_isolates_failures_witness :
    TaskBuildWrapper.call "task t" (Except.ok TaskStatus.Executed) =
      BuildResult.status TaskStatus.Executed ∧
    TaskBuildWrapper.call "task t" (Except.error ⟨"trace text"⟩) =
      BuildResult.excResult
        { task_str := "task t", traceback_str := "trace text" } :=
  ⟨(taskBuildWrapper_isolates_failures "task t"
      (Except.ok TaskStatus.Executed)).1 TaskStatus.Executed rfl,
   (taskBuildWrapper_isolates_failures "task t"
      (Except.error ⟨"trace text"⟩)).2 ⟨"trace text"⟩ rfl⟩

/-- C4: for every dispatched task, the completion callback sets the status
of the task according to the outcome: BrokenProcessPool on a fatal pool
fault, Errored when the result is an ExceptionResult, and otherwise the
returned terminal status value itself; in all three cases it appends the
task to done. -/
theorem callback_outcome_to_status (t : String) (o : FutureOutcome)
    (status : String → TaskStatus) (done : List String) :
    (o = FutureOutcome.broken →
      (callback t o status done).1 t = TaskStatus.BrokenProcessPool) ∧
    (∀ r, o = FutureOutcome.result (BuildResult.excResult r) →
      (callback t o status done).1 t = TaskStatus.Errored) ∧
    (∀ v, o = FutureOutcome.result (BuildResult.status v) →
      (callback t o status done).1 t = v) ∧
    (callback t o status done).2 = done ++ [t] := by
  refine ⟨?_, ?_, ?_, ?_⟩
  · intro h; subst h; simp [callback, statusUpdate]
  · intro r h; subst h; simp [callback, statusUpdate]
  · intro v h; subst h; simp [callback, statusUpdate]
  · cases o with
    | broken => rfl
    | result r => cases r with
      | status v => rfl
      | excResult e => rfl

/-- Witness for C4 at a concrete broken-pool outcome. -/
theorem callback_outcome_to_status_witness :
    (callback "a" FutureOutcome.broken stWaiting []).1 "a" =
      TaskStatus.BrokenProcessPool ∧
    (callback "a" FutureOutcome.broken stWaiting []).2 = [] ++ ["a"] :=
  ⟨(callback_outcome_to_status "a" FutureOutcome.broken stWaiting []).1 rfl,
   (callback_outcome_to_status "a" FutureOutcome.broken stWaiting []).2.2.2⟩

/-- C9: the done collection is a list and next_task appends every Aborted
task on every poll without checking prior membership, so done can hold the
same Aborted task several times (here task a appears twice after two
polls); whole-run completion detection is nevertheless correct because the
stop check compares the name sets, which is insensitive to duplicates. -/
theorem done_duplicates_harmless :
    ((next_task ["a", "b"] stAbortedA ["b"]
        ((next_task ["a", "b"] stAbortedA ["b"] []).1)).1 = ["a", "a"]) ∧
    (∀ d1 d2 dag : List String, (∀ n, n ∈ d1 ↔ n ∈ d2) →
      setEq d1 dag = setEq d2 dag) := by
  constructor
  · decide
  · intro d1 d2 dag h
    unfold setEq
    rw [decide_eq_decide]
    constructor
    · rintro ⟨h1, h2⟩
      exact ⟨fun n hn => h1 n ((h n).2 hn), fun n hn => (h n).1 (h2 n hn)⟩
    · rintro ⟨h1, h2⟩
      exact ⟨fun n hn => h1 n ((h n).1 hn), fun n hn => (h n).2 (h2 n hn)⟩

/-- Witness for C9: the name-set completion check at concrete duplicated
and deduplicated done lists. -/
theorem done_duplicates_harmless_witness :
    setEq ["a"] ["a", "b"] = setEq ["a", "a"] ["a", "b"] :=
  done_duplicates_harmless.2 ["a"] ["a", "a"] ["a", "b"] (by intro n; simp)

/-- C3: Aborted and BrokenProcessPool are absorbing for scheduling: a task
whose status is Aborted is never returned for dispatch by next_task (the
dispatched task always has status WaitingExecution), and when any task of
the dag has status BrokenProcessPool at the start of a poll, the loop
halts with the fatal stop and the started list never grows again, no
matter how many tasks are still WaitingExecution. -/
theorem aborted_broken_absorbing :
    (∀ (dag : List String) (status : String → TaskStatus)
        (started done : List String) (t : String),
        (next_task dag status started done).2 = NextTaskOutcome.dispatch t →
        status t ≠ TaskStatus.Aborted) ∧
    (∀ (outcome : String → FutureOutcome) (dag : List String)
        (schedule : List SchedAction) (s : RunState),
        (∃ n ∈ dag, s.status n = TaskStatus.BrokenProcessPool) →
        (loop outcome dag (SchedAction.poll :: schedule) s).2 =
          some StopReason.fatal ∧
        (loop outcome dag (SchedAction.poll :: schedule) s).1.started =
          s.started) := by
  constructor
  · intro dag status started done t h
    have hw := (next_task_dispatch_ready dag status started done t h).1
    rw [hw]
    simp
  · intro outcome dag schedule s h
    have hs : (abortedScan s.status dag).2 = true :=
      abortedScan_broken s.status dag h
    have hnt := next_task_of_broken dag s.status s.started s.done hs
    rw [loop_poll_eq, hnt]
    exact ⟨rfl, rfl⟩

/-- Witness for C3: a dispatch out of a concrete state is not Aborted, and
a concrete state with a BrokenProcessPool status halts fatally with
nothing submitted. -/
theorem aborted_broken_absorbing_witness :
    stWaiting "a" ≠ TaskStatus.Aborted ∧
    (loop outBroken ["a"] [SchedAction.poll]
      ⟨stBroken, [], [], []⟩).2 = some StopReason.fatal ∧
    (loop outBroken ["a"] [SchedAction.poll]
      ⟨stBroken, [], [], []⟩).1.started = [] :=
  ⟨aborted_broken_absorbing.1 ["a"] stWaiting [] [] "a" (by decide),
   (aborted_broken_absorbing.2 outBroken ["a"] []
      ⟨stBroken, [], [], []⟩ ⟨"a", by decide, by decide⟩).1,
   (aborted_broken_absorbing.2 outBroken ["a"] []
      ⟨stBroken, [], [], []⟩ ⟨"a", by decide, by decide⟩).2⟩

/-- C7: at-most-once submission: next_task never returns a task already in
started, and consequently the started list of a whole run (the full
submission history, one entry per pool.submit) never holds a task twice. -/
theorem at_most_once_submission :
    (∀ (dag : List String) (status : String → TaskStatus)
        (started done : List String) (t : String),
        (next_task dag status started done).2 = NextTaskOutcome.dispatch t →
        t ∉ started) ∧
    (∀ (outcome : String → FutureOutcome) (dag : List String)
        (status0 : String → TaskStatus) (schedule : List SchedAction),
        (Parallel.call outcome dag status0 schedule).state.started.Nodup) := by
  constructor
  · intro dag status started done t h
    exact (next_task_dispatch_ready dag status started done t h).2
  · intro outcome dag status0 schedule
    rw [parallelCall_started_eq]
    exact loop_started_nodup outcome dag schedule _ (by simp)

/-- Witness for C7 at a concrete dispatch and a concrete full run. -/
theorem at_most_once_submission_witness :
    "a" ∉ ([] : List String) ∧
    (Parallel.call outExecuted ["a"] stWaiting
      [SchedAction.poll, SchedAction.fire 0, SchedAction.poll]).state.started.Nodup :=
  ⟨at_most_once_submission.1 ["a"] stWaiting [] [] "a" (by decide),
   at_most_once_submission.2 outExecuted ["a"] stWaiting
     [SchedAction.poll, SchedAction.fire 0, SchedAction.poll]⟩

/-- C2: past the BrokenProcessPool check (no task of the dag has that
status), next_task returns the first task in the stable dag order whose
status is WaitingExecution and which is not in started; when no task
qualifies it signals normal end-of-scheduling exactly when the name set of
done (after the aborted-task appends of this poll) equals the name set of
the dag, and otherwise returns None so the loop keeps polling. -/
theorem next_task_selects_first_ready
    (dag : List String) (status : String → TaskStatus)
    (started done : List String)
    (hnb : ∀ n ∈ dag, status n ≠ TaskStatus.BrokenProcessPool) :
    ((∃ u ∈ dag, status u = TaskStatus.WaitingExecution ∧ u ∉ started) →
      ∃ pre post t, dag = pre ++ t :: post ∧
        (next_task dag status started done).2 = NextTaskOutcome.dispatch t ∧
        status t = TaskStatus.WaitingExecution ∧ t ∉ started ∧
        ∀ u ∈ pre, ¬(status u = TaskStatus.WaitingExecution ∧ u ∉ started)) ∧
    ((∀ u ∈ dag, ¬(status u = TaskStatus.WaitingExecution ∧ u ∉ started)) →
      (((next_task dag status started done).2 = NextTaskOutcome.stopDone ↔
        setEq (next_task dag status started done).1 dag = true) ∧
       ((next_task dag status started done).2 = NextTaskOutcome.keepPolling ↔
        setEq (next_task dag status started done).1 dag = false))) := by
  have hs : (abortedScan status dag).2 = false :=
    abortedScan_not_broken status dag hnb
  constructor
  · rintro ⟨u, hu, hq⟩
    cases hf : dag.find? (taskReady status started) with
    | none =>
      exfalso
      have hnone := List.find?_eq_none.mp hf u hu
      exact hnone ((taskReady_iff status started u).mpr hq)
    | some t =>
      obtain ⟨pre, post, heq, hpt, hpre⟩ :=
        find?_eq_some_first (taskReady status started) dag t hf
      have hrt := (taskReady_iff status started t).mp hpt
      refine ⟨pre, post, t, heq, ?_, hrt.1, hrt.2, ?_⟩
      · rw [next_task_of_find dag status started done t hs hf]
      · intro u2 hu2 hq2
        have hfalse := hpre u2 hu2
        rw [← taskReady_iff status started u2] at hq2
        rw [hfalse] at hq2
        exact Bool.noConfusion hq2
  · intro hnone
    have hf : dag.find? (taskReady status started) = none := by
      apply List.find?_eq_none.mpr
      intro x hx hpx
      exact hnone x hx ((taskReady_iff status started x).mp hpx)
    by_cases hd : setEq (done ++ (abortedScan status dag).1) dag = true
    · rw [next_task_of_none_stop dag status started done hs hf hd]
      refine ⟨iff_of_true rfl hd, iff_of_false (by simp) ?_⟩
      intro h
      rw [h] at hd
      exact Bool.noConfusion hd
    · rw [Bool.not_eq_true] at hd
      rw [next_task_of_none_poll dag status started done hs hf hd]
      refine ⟨iff_of_false (by simp) ?_, iff_of_true rfl hd⟩
      intro h
      rw [h] at hd
      exact Bool.noConfusion hd

/-- Witness for C2: a fully satisfied concrete state stops normally. -/
theorem next_task_selects_first_ready_witness :
    (next_task ["a"] stExecuted [] ["a"]).2 = NextTaskOutcome.stopDone :=
  (((next_task_selects_first_ready ["a"] stExecuted [] ["a"]
      (by decide)).2 (by decide)).1).mpr (by decide)

theorem loop_poll_stopDone (outcome : String → FutureOutcome)
    (dag : List String) (rest : List SchedAction) (s : RunState)
    (d1 : List String)
    (hnt : next_task dag s.status s.started s.done =
      (d1, NextTaskOutcome.stopDone)) :
    loop outcome dag (SchedAction.poll :: rest) s =
      ({ s with done := d1 }, some StopReason.normal) := by
  rw [loop_poll_eq, hnt]

/-- C6: idempotence of a satisfied run: when every task of the dag is
Executed or Skipped at the start, the pre-run loop adds the whole dag to
done, the first poll stops the loop by the normal path, no build
invocation is ever submitted (started stays empty), no task status is
modified, and the run reports success. -/
theorem satisfied_dag_idempotent
    (outcome : String → FutureOutcome) (dag : List String)
    (status0 : String → TaskStatus) (rest : List SchedAction)
    (hsat : ∀ n ∈ dag,
      status0 n = TaskStatus.Executed ∨ status0 n = TaskStatus.Skipped) :
    preDone dag status0 = dag ∧
    (Parallel.call outcome dag status0
        (SchedAction.poll :: rest)).state.started = [] ∧
    (∀ n, (Parallel.call outcome dag status0
        (SchedAction.poll :: rest)).state.status n = status0 n) ∧
    (Parallel.call outcome dag status0 (SchedAction.poll :: rest)).reason =
      some StopReason.normal ∧
    (Parallel.call outcome dag status0 (SchedAction.poll :: rest)).result =
      RunResult.success := by
  have hpre : preDone dag status0 = dag := by
    apply List.filter_eq_self.mpr
    intro n hn
    rcases hsat n hn with h | h <;> simp [h]
  have hno : ∀ n ∈ dag, status0 n ≠ TaskStatus.Aborted ∧
      status0 n ≠ TaskStatus.BrokenProcessPool := by
    intro n hn
    rcases hsat n hn with h | h <;> rw [h] <;> exact ⟨by simp, by simp⟩
  have hscan : abortedScan status0 dag = ([], false) :=
    abortedScan_no_hits status0 dag hno
  have hf : dag.find? (taskReady status0 []) = none := by
    apply List.find?_eq_none.mpr
    intro x hx hpx
    have hq := (taskReady_iff status0 [] x).mp hpx
    rcases hsat x hx with h | h <;> rw [h] at hq <;> exact absurd hq.1 (by simp)
  have hd1 : preDone dag status0 ++ (abortedScan status0 dag).1 = dag := by
    rw [hscan, hpre, List.append_nil]
  have hd : setEq (preDone dag status0 ++ (abortedScan status0 dag).1) dag
      = true := by
    rw [hd1]
    exact (setEq_iff dag dag).mpr fun n => Iff.rfl
  have hnt : next_task dag status0 [] (preDone dag status0) =
      (preDone dag status0 ++ (abortedScan status0 dag).1,
        NextTaskOutcome.stopDone) := by
    exact next_task_of_none_stop dag status0 [] (preDone dag status0)
      (by rw [hscan]) hf hd
  have hloop : loop outcome dag (SchedAction.poll :: rest)
      { status := status0, done := preDone dag status0,
        started := [], pending := [] } =
      ({ status := status0, done := dag, started := [], pending := [] },
        some StopReason.normal) := by
    rw [loop_poll_stopDone outcome dag rest _ _ (by exact hd1 ▸ hnt)]
  have hcall : Parallel.call outcome dag status0 (SchedAction.poll :: rest) =
      { state := { status := status0, done := dag, started := [], pending := [] },
        reason := some StopReason.normal,
        result := RunResult.success } := by
    unfold Parallel.call
    dsimp only
    rw [hloop]
    rfl
  refine ⟨hpre, ?_, ?_, ?_, ?_⟩
  · rw [hcall]
  · intro n; rw [hcall]
  · rw [hcall]
  · rw [hcall]

/-- Witness for C6 at a concrete fully Executed two-task dag. -/
theorem satisfied_dag_idempotent_witness :
    (Parallel.call outExecuted ["a", "b"] stExecuted [SchedAction.poll]).reason =
      some StopReason.normal ∧
    (Parallel.call outExecuted ["a", "b"] stExecuted [SchedAction.poll]).result =
      RunResult.success ∧
    (Parallel.call outExecuted ["a", "b"] stExecuted
      [SchedAction.poll]).state.started = [] :=
  ⟨(satisfied_dag_idempotent outExecuted ["a", "b"] stExecuted []
      (by decide)).2.2.2.1,
   (satisfied_dag_idempotent outExecuted ["a", "b"] stExecuted []
      (by decide)).2.2.2.2,
   (satisfied_dag_idempotent outExecuted ["a", "b"] stExecuted []
      (by decide)).2.1⟩

/-- C8: frame condition on the fatal-stop path: when the run halted
because a BrokenProcessPool status was observed, the status of every task
that was never submitted (not in started) is exactly its pre-run status;
such tasks are never silently marked successful or terminal. -/
theorem fatal_stop_frame
    (outcome : String → FutureOutcome) (dag : List String)
    (status0 : String → TaskStatus) (schedule : List SchedAction) (n : String)
    (_hfatal : (Parallel.call outcome dag status0 schedule).reason =
      some StopReason.fatal)
    (hns : n ∉ (Parallel.call outcome dag status0 schedule).state.started) :
    (Parallel.call outcome dag status0 schedule).state.status n =
      status0 n := by
  obtain ⟨p1, p2, p3⟩ := loop_frame outcome dag schedule
    { status := status0, done := preDone dag status0,
      started := [], pending := [] } (by simp)
  rw [parallelCall_started_eq] at hns
  have hpend : n ∉ (loop outcome dag schedule
      { status := status0, done := preDone dag status0,
        started := [], pending := [] }).1.pending :=
    fun hc => hns (p1 n hc)
  show (Parallel.call outcome dag status0 schedule).state.status n = status0 n
  unfold Parallel.call
  dsimp only
  rw [drainCallbacks_status_other outcome _ _ n hpend]
  exact p3 n hns

/-- Witness for C8: the pool breaks after the first of two tasks is
dispatched; the undispatched task keeps its WaitingExecution status. -/
theorem fatal_stop_frame_witness :
    (Parallel.call outBrokenA ["a", "b"] stWaiting
      [SchedAction.poll, SchedAction.fire 0, SchedAction.poll]).state.status "b" =
      TaskStatus.WaitingExecution :=
  fatal_stop_frame outBrokenA ["a", "b"] stWaiting
    [SchedAction.poll, SchedAction.fire 0, SchedAction.poll] "b"
    (by decide) (by decide)

/-- C1 counterexample: a one-task run in which the pool breaks. The task
entered BrokenProcessPool and the loop exited by the fatal-stop path, yet
the caller does not receive the aggregate build error (DAGBuildError
listing failed tasks): get_future_result re-raises the BrokenProcessPool
exception during collection, so the run fails with brokenPoolError
instead. The claimed iff (aggregate build error raised exactly when some
task Errored or the pool broke) is therefore false at this input. -/
theorem broken_pool_without_aggregate_error :
    (Parallel.call outBroken ["a"] stWaiting
      [SchedAction.poll, SchedAction.fire 0, SchedAction.poll]).state.status "a" =
      TaskStatus.BrokenProcessPool ∧
    (Parallel.call outBroken ["a"] stWaiting
      [SchedAction.poll, SchedAction.fire 0, SchedAction.poll]).reason =
      some StopReason.fatal ∧
    (Parallel.call outBroken ["a"] stWaiting
      [SchedAction.poll, SchedAction.fire 0, SchedAction.poll]).result =
      RunResult.brokenPoolError "a" ∧
    ¬∃ e, (Parallel.call outBroken ["a"] stWaiting
      [SchedAction.poll, SchedAction.fire 0, SchedAction.poll]).result =
      RunResult.dagBuildError e := by
  refine ⟨by decide, by decide, by decide, ?_⟩
  rintro ⟨e, he⟩
  have hr : (Parallel.call outBroken ["a"] stWaiting
      [SchedAction.poll, SchedAction.fire 0, SchedAction.poll]).result =
      RunResult.brokenPoolError "a" := by decide
  rw [hr] at he
  exact RunResult.noConfusion he

/-- C1 (amended): the run fails iff some dispatched future produced an
ExceptionResult or raised a broken-pool fault; the aggregate DAGBuildError
(listing each failed task) is raised exactly when at least one
ExceptionResult exists and no future raised the broken-pool fault; when
some future raised the broken-pool fault, the run fails by re-raising
BrokenProcessPool, so the fatal-stop path with zero ExceptionResults still
fails rather than succeeding. -/
theorem run_fails_iff_errored_or_broken
    (outcome : String → FutureOutcome) (dag : List String)
    (status0 : String → TaskStatus) (schedule : List SchedAction) :
    ((Parallel.call outcome dag status0 schedule).result =
        RunResult.success ↔
      ∀ f ∈ (Parallel.call outcome dag status0 schedule).state.started,
        (∀ r, outcome f ≠ FutureOutcome.result (BuildResult.excResult r)) ∧
        outcome f ≠ FutureOutcome.broken) ∧
    ((∃ e, (Parallel.call outcome dag status0 schedule).result =
        RunResult.dagBuildError e) ↔
      ((∃ f ∈ (Parallel.call outcome dag status0 schedule).state.started,
          ∃ r, outcome f = FutureOutcome.result (BuildResult.excResult r)) ∧
        ∀ f ∈ (Parallel.call outcome dag status0 schedule).state.started,
          outcome f ≠ FutureOutcome.broken)) ∧
    ((∃ t, (Parallel.call outcome dag status0 schedule).result =
        RunResult.brokenPoolError t) ↔
      ∃ f ∈ (Parallel.call outcome dag status0 schedule).state.started,
        outcome f = FutureOutcome.broken) := by
  rw [parallelCall_result_eq]
  exact aggregate_characterization outcome _

/-- Witness for C1 (amended): an all-clean concrete run succeeds. -/
theorem run_fails_iff_errored_or_broken_witness :
    (Parallel.call outExecuted ["a"] stExecuted [SchedAction.poll]).result =
      RunResult.success := by
  apply (run_fails_iff_errored_or_broken outExecuted ["a"] stExecuted
    [SchedAction.poll]).1.mpr
  intro f hf
  rw [show (Parallel.call outExecuted ["a"] stExecuted
    [SchedAction.poll]).state.started = [] from by decide] at hf
  exact absurd hf (List.not_mem_nil f)

end Ploomber
